import Mathlib

/-!
Verification development for the `dql` query-builder library.

The library assembles a DQL query document from five entity kinds
(Attribute, Param, QueryBlock, VarBlock, Fragment) rooted in a Query,
and renders it to text either compactly (space-joined components, the
`String` methods) or indented (`PrettyPrint`, a character scan over the
compact render tracking brace depth).

The embedding below translates each Go function of the repository.
Go's `strings.Join` is `goJoin`; variadic parameters become `List`
arguments; the builder methods' slice-append loops become list append.
`PrettyPrint` indexes bytes and calls `strings.Repeat` with a possibly
negative count, which stops the program; the scan is embedded as a
function into `Option`, `none` marking those failure points (out-of-range
index, negative repeat count). The scan is modelled at rune level, which
agrees with Go's byte scan on the structural ASCII characters it
inspects.

Brace characters are written with their `\x7b` and `\x7d` escapes
throughout.
-/

/-- The text type, named so that it stays visible inside the entity
namespaces whose render methods are themselves called String. -/
abbrev Str : Type := String

/-- Go's strings.Join: concatenate the list elements with the separator
between consecutive elements. -/
def goJoin (sep : String) : List String → String
  | [] => ""
  | [x] => x
  | x :: y :: ys => x ++ sep ++ goJoin sep (y :: ys)

/-- Characters emitted by Go's strings.Repeat of the two-space indent
step, at the given depth. -/
def stepChars (n : Nat) : List Char := List.replicate (2 * n) ' '

/-- A string containing neither an opening nor a closing brace. -/
def BraceFree (s : String) : Prop := ∀ c ∈ s.data, c ≠ '\x7b' ∧ c ≠ '\x7d'

/-- Boolean check for BraceFree. -/
def strBF (s : String) : Bool := s.data.all fun c => c != '\x7b' && c != '\x7d'

/-- BraceFree is decidable. -/
instance braceFreeDec (s : String) : Decidable (BraceFree s) :=
  decidable_of_iff (∀ c ∈ s.data, c ≠ '\x7b' ∧ c ≠ '\x7d') Iff.rfl

/-- Attribute: a field reference with optional alias, directives, and
nested attributes (src/dql/attribute.go). -/
inductive Attribute : Type where
  | mk : String → String → List String → List Attribute → Attribute

/-- Field accessor: the attribute's optional alias. -/
def Attribute.Alias : Attribute → String
  | .mk x _ _ _ => x

/-- Field accessor: the attribute's name. -/
def Attribute.Name : Attribute → String
  | .mk _ x _ _ => x

/-- Field accessor: the attribute's directives. -/
def Attribute.Directives : Attribute → List String
  | .mk _ _ x _ => x

/-- Field accessor: the attribute's nested attributes. -/
def Attribute.Attributes : Attribute → List Attribute
  | .mk _ _ _ x => x

/-- NewAttribute (attribute.go): an attribute with the given name. -/
def NewAttribute (name : String) : Attribute := .mk "" name [] []

/-- Attribute.WithDirectives: append directives. -/
def Attribute.WithDirectives : Attribute → List String → Attribute
  | .mk al n ds ch, more => .mk al n (ds ++ more) ch

/-- Attribute.WithAttributes: append nested attributes. -/
def Attribute.WithAttributes : Attribute → List Attribute → Attribute
  | .mk al n ds ch, more => .mk al n ds (ch ++ more)

mutual

/-- Attribute.String (attribute.go): alias-colon when the alias is set,
then name, directives, and a braced child list only when children
exist; components space-joined. -/
def Attribute.String : Attribute → String
  | .mk al n ds ch =>
      goJoin " "
        ((if al ≠ "" then [al, ":"] else []) ++ [n] ++ ds ++
          (if ch.isEmpty then [] else
            ["\x7b"] ++ Attribute.StringList ch ++ ["\x7d"]))

/-- The renders of a list of attributes, in order. -/
def Attribute.StringList : List Attribute → List String
  | [] => []
  | a :: as => Attribute.String a :: Attribute.StringList as

end

/-- Param (attribute.go): name, type, optional default. -/
structure Param : Type where
  Name : String
  «Type» : String
  Default : String

/-- NewParam: a parameter with empty default. -/
def NewParam (n : String) (t : String) : Param := ⟨n, t, ""⟩

/-- Param.WithDefault: set the default value (last call wins). -/
def Param.WithDefault (p : Param) (val : String) : Param :=
  { p with Default := val }

/-- Param.String: "name: type" plus " = default" when the default is
set. -/
def Param.String (p : Param) : String :=
  p.Name ++ ": " ++ p.«Type» ++ (if p.Default ≠ "" then " = " ++ p.Default else "")

/-- QueryBlock (query_block.go): name, criteria, directives,
attributes. -/
structure QueryBlock : Type where
  Name : String
  Criteria : List String
  Directives : List String
  Attributes : List Attribute

/-- NewQueryBlock: seeds the criteria list with the root criterion. -/
def NewQueryBlock (name : String) (criteria : String) : QueryBlock :=
  ⟨name, [criteria], [], []⟩

/-- QueryBlock.WithCriteria: append criteria. -/
def QueryBlock.WithCriteria (qb : QueryBlock) (cs : List String) : QueryBlock :=
  { qb with Criteria := qb.Criteria ++ cs }

/-- QueryBlock.WithDirectives: append directives. -/
def QueryBlock.WithDirectives (qb : QueryBlock) (ds : List String) : QueryBlock :=
  { qb with Directives := qb.Directives ++ ds }

/-- QueryBlock.WithAttributes: append attributes. -/
def QueryBlock.WithAttributes (qb : QueryBlock) (as_ : List Attribute) : QueryBlock :=
  { qb with Attributes := qb.Attributes ++ as_ }

/-- QueryBlock.String: name, one func clause holding the comma-joined
criteria, directives, then the always-braced attribute list;
space-joined. -/
def QueryBlock.String (qb : QueryBlock) : String :=
  goJoin " "
    ([qb.Name, "(func: " ++ goJoin ", " qb.Criteria ++ ")"] ++ qb.Directives ++
      ["\x7b"] ++ Attribute.StringList qb.Attributes ++ ["\x7d"])

/-- VarBlock (var_block.go): optional name, one criterion, directives,
attributes. -/
structure VarBlock : Type where
  Name : String
  Criteria : String
  Attributes : List Attribute
  Directives : List String

/-- NewVarBlock: a variable block with the given criterion. -/
def NewVarBlock (criteria : String) : VarBlock := ⟨"", criteria, [], []⟩

/-- VarBlock.WithName: set the block name. -/
def VarBlock.WithName (vb : VarBlock) (name : String) : VarBlock :=
  { vb with Name := name }

/-- VarBlock.WithDirectives: append directives. -/
def VarBlock.WithDirectives (vb : VarBlock) (ds : List String) : VarBlock :=
  { vb with Directives := vb.Directives ++ ds }

/-- VarBlock.WithAttributes: append attributes. -/
def VarBlock.WithAttributes (vb : VarBlock) (as_ : List Attribute) : VarBlock :=
  { vb with Attributes := vb.Attributes ++ as_ }

/-- VarBlock.String: optional "name AS", then "var", the func clause,
directives, braced attributes; space-joined. -/
def VarBlock.String (vb : VarBlock) : String :=
  goJoin " "
    ((if vb.Name ≠ "" then [vb.Name, "AS"] else []) ++
      ["var", "(func: " ++ vb.Criteria ++ ")"] ++ vb.Directives ++
      ["\x7b"] ++ Attribute.StringList vb.Attributes ++ ["\x7d"])

/-- Fragment (attribute.go): a named attribute bundle. -/
structure Fragment : Type where
  Name : String
  Attributes : List Attribute

/-- NewFragment: a fragment with the given name. -/
def NewFragment (name : String) : Fragment := ⟨name, []⟩

/-- Fragment.WithAttributes: append attributes. -/
def Fragment.WithAttributes (f : Fragment) (as_ : List Attribute) : Fragment :=
  { f with Attributes := f.Attributes ++ as_ }

/-- Fragment.String: "fragment", name, always-braced attribute list;
space-joined. -/
def Fragment.String (f : Fragment) : String :=
  goJoin " " (["fragment", f.Name, "\x7b"] ++ Attribute.StringList f.Attributes ++ ["\x7d"])

/-- Query (attribute.go): root container. -/
structure Query : Type where
  Name : String
  Params : List Param
  QueryBlocks : List QueryBlock
  VarBlocks : List VarBlock
  Fragments : List Fragment

/-- NewQuery: a query with the given name and a single query block. -/
def NewQuery (name : String) (queryBlock : QueryBlock) : Query :=
  ⟨name, [], [queryBlock], [], []⟩

/-- Query.WithParam: append parameters. -/
def Query.WithParam (q : Query) (ps : List Param) : Query :=
  { q with Params := q.Params ++ ps }

/-- Query.WithVarBlocks: append variable blocks. -/
def Query.WithVarBlocks (q : Query) (vbs : List VarBlock) : Query :=
  { q with VarBlocks := q.VarBlocks ++ vbs }

/-- Query.WithQueryBlocks: append query blocks. -/
def Query.WithQueryBlocks (q : Query) (qbs : List QueryBlock) : Query :=
  { q with QueryBlocks := q.QueryBlocks ++ qbs }

/-- Query.WithFragments: append fragments. -/
def Query.WithFragments (q : Query) (fs : List Fragment) : Query :=
  { q with Fragments := q.Fragments ++ fs }

/-- Query.concatenate: optional "query name" header, optional
parenthesised comma-joined parameter list (three components), the outer
opening brace, the variable blocks then the query blocks, the outer
closing brace, then the fragments. -/
def Query.concatenate (q : Query) : List String :=
  (if q.Name ≠ "" then ["query", q.Name] else []) ++
  (if q.Params.isEmpty then [] else
    ["("] ++ [goJoin ", " (q.Params.map Param.String)] ++ [")"]) ++
  ["\x7b"] ++ q.VarBlocks.map VarBlock.String ++ q.QueryBlocks.map QueryBlock.String ++
  ["\x7d"] ++ q.Fragments.map Fragment.String

/-- Query.String: the components space-joined into one line. -/
def Query.String (q : Query) : String := goJoin " " q.concatenate

/-- The character scan inside Query.PrettyPrint. The first argument is
the brace depth, the second is true when the previous iteration did the
extra cursor advance (Go's i += 1), so the current character is skipped
unread. On an opening brace: emit the brace, a newline and the
incremented indent, then skip the following character. On a closing
brace: a zero depth means Go's strings.Repeat receives a negative count
and the program stops, embedded as none; otherwise emit a newline, the
decremented indent and the brace; when the brace is not the last
character the scan reads the character two positions ahead, which is
out of range (none) when only one character remains, and emits a
further newline only when that character is not a closing brace; then
emit the decremented indent again and skip the following character.
Any other character is copied through. -/
def ppLoop (d : Nat) (skip : Bool) : List Char → Option (List Char)
  | [] => some []
  | c :: rest =>
    if skip then ppLoop d false rest
    else if c = '\x7b' then
      (ppLoop (d + 1) true rest).map fun out =>
        '\x7b' :: '\n' :: (stepChars (d + 1) ++ out)
    else if c = '\x7d' then
      match d, rest with
      | 0, _ => none
      | e + 1, [] => some ('\n' :: (stepChars e ++ ['\x7d'] ++ stepChars e))
      | _ + 1, [_] => none
      | e + 1, _ :: p :: _ =>
        (ppLoop e true rest).map fun out =>
          '\n' :: (stepChars e ++ ['\x7d'] ++
            (if p = '\x7d' then [] else ['\n']) ++ (stepChars e ++ out))
    else
      (ppLoop d false rest).map fun out => c :: out

/-- Query.PrettyPrint: run the brace-depth scan over the compact
render; none marks the runtime failures of the Go original. -/
def Query.PrettyPrint (q : Query) : Option Str :=
  (ppLoop 0 false q.String.data).map fun cs => ⟨cs⟩

/-- State-threaded form of the value-receiver render methods: the Go
methods read but never write any receiver field, so the faithful
state-passing embedding returns the receiver unchanged beside the
output. -/
def Query.StringM (q : Query) : Str × Query := (q.String, q)

/-- State-threaded form of Query.PrettyPrint. -/
def Query.PrettyPrintM (q : Query) : Option Str × Query := (q.PrettyPrint, q)

/-- The example query of the spec's end-to-end property: block getUser
with criterion has(user) and attributes name and age, inside query
GetUserQuery. -/
def qGetUser : Query :=
  NewQuery "GetUserQuery"
    ((NewQueryBlock "getUser" "has(user)").WithAttributes
      [NewAttribute "name", NewAttribute "age"])

/-- The spec's pretty-print example: an unnamed query holding a single
empty block named q with criterion true. -/
def qSingle : Query := NewQuery "" (NewQueryBlock "q" "true")

/-- A named query with one parameter, exercising the parameter header. -/
def qParam : Query :=
  (NewQuery "Q" (NewQueryBlock "b" "c")).WithParam [NewParam "id" "string"]

/-- A query whose block name contains a closing brace, driving the
pretty-printer's depth counter negative. -/
def qBrace : Query := NewQuery "" (NewQueryBlock "\x7d" "c")

mutual

/-- The compact render of an attribute, flattened into the individual
space-separated tokens instead of one string. -/
def Attribute.tokens : Attribute → List Str
  | .mk al n ds ch =>
      (if al ≠ "" then [al, ":"] else []) ++ [n] ++ ds ++
        (if ch.isEmpty then [] else ["\x7b"] ++ Attribute.tokensList ch ++ ["\x7d"])

/-- Flattened tokens of a list of attributes, in order. -/
def Attribute.tokensList : List Attribute → List Str
  | [] => []
  | a :: as => Attribute.tokens a ++ Attribute.tokensList as

end

/-- Flattened tokens of a query block's compact render. -/
def QueryBlock.tokens (qb : QueryBlock) : List Str :=
  [qb.Name, "(func: " ++ goJoin ", " qb.Criteria ++ ")"] ++ qb.Directives ++
    ["\x7b"] ++ Attribute.tokensList qb.Attributes ++ ["\x7d"]

/-- Flattened tokens of a variable block's compact render. -/
def VarBlock.tokens (vb : VarBlock) : List Str :=
  (if vb.Name ≠ "" then [vb.Name, "AS"] else []) ++
    ["var", "(func: " ++ vb.Criteria ++ ")"] ++ vb.Directives ++
    ["\x7b"] ++ Attribute.tokensList vb.Attributes ++ ["\x7d"]

/-- Flattened tokens of a fragment's compact render. -/
def Fragment.tokens (f : Fragment) : List Str :=
  ["fragment", f.Name, "\x7b"] ++ Attribute.tokensList f.Attributes ++ ["\x7d"]

/-- Flattened tokens of the full compact render of a query. -/
def Query.tokens (q : Query) : List Str :=
  (if q.Name ≠ "" then ["query", q.Name] else []) ++
  (if q.Params.isEmpty then [] else
    ["(", goJoin ", " (q.Params.map Param.String), ")"]) ++
  ["\x7b"] ++ (q.VarBlocks.map VarBlock.tokens).flatten ++
  (q.QueryBlocks.map QueryBlock.tokens).flatten ++
  ["\x7d"] ++ (q.Fragments.map Fragment.tokens).flatten

mutual

/-- All caller-supplied strings of an attribute avoid braces. -/
def Attribute.bfB : Attribute → Bool
  | .mk al n ds ch => strBF al && strBF n && ds.all strBF && Attribute.bfListB ch

/-- All caller-supplied strings in a list of attributes avoid braces. -/
def Attribute.bfListB : List Attribute → Bool
  | [] => true
  | a :: as => Attribute.bfB a && Attribute.bfListB as

end

/-- All caller-supplied strings of a parameter avoid braces. -/
def Param.bfB (p : Param) : Bool := strBF p.Name && strBF p.«Type» && strBF p.Default

/-- All caller-supplied strings of a query block avoid braces. -/
def QueryBlock.bfB (qb : QueryBlock) : Bool :=
  strBF qb.Name && qb.Criteria.all strBF && qb.Directives.all strBF &&
    Attribute.bfListB qb.Attributes

/-- All caller-supplied strings of a variable block avoid braces. -/
def VarBlock.bfB (vb : VarBlock) : Bool :=
  strBF vb.Name && strBF vb.Criteria && vb.Directives.all strBF &&
    Attribute.bfListB vb.Attributes

/-- All caller-supplied strings of a fragment avoid braces. -/
def Fragment.bfB (f : Fragment) : Bool :=
  strBF f.Name && Attribute.bfListB f.Attributes

/-- All caller-supplied strings anywhere in a query avoid braces. -/
def Query.bfB (q : Query) : Bool :=
  strBF q.Name && q.Params.all Param.bfB && q.VarBlocks.all VarBlock.bfB &&
    q.QueryBlocks.all QueryBlock.bfB && q.Fragments.all Fragment.bfB

/-- Depth bookkeeping over a token list: opening-brace tokens push,
closing-brace tokens pop and demand positive depth, and every other
token must be brace-free. -/
def depthOk : Nat → List Str → Prop
  | _, [] => True
  | d, t :: ts =>
    if t = "\x7b" then depthOk (d + 1) ts
    else if t = "\x7d" then 0 < d ∧ depthOk (d - 1) ts
    else BraceFree t ∧ depthOk d ts

/-- A token segment that preserves depthOk when prepended: balanced
brace structure with brace-free ordinary tokens. -/
def Neutral (ts : List Str) : Prop :=
  ∀ d ys, depthOk d ys → depthOk d (ts ++ ys)

/-- What the character scan needs from a token list: depth
bookkeeping, plus, at every closing-brace token, that the rest of the
list is either empty or joins to a nonempty string (so the two-ahead
read stays in range). -/
def scanOk : Nat → List Str → Prop
  | _, [] => True
  | d, t :: ts =>
    if t = "\x7b" then scanOk (d + 1) ts
    else if t = "\x7d" then
      0 < d ∧ (ts = [] ∨ goJoin " " ts ≠ "") ∧ scanOk (d - 1) ts
    else BraceFree t ∧ scanOk d ts

/-- The scan as claim C5 words it: on a non-final closing brace the
extra newline, the re-emitted indent and the extra cursor advance all
happen only when the character two ahead is not a closing brace, and
nothing further is emitted (and no extra advance taken) when it is.
Identical to ppLoop elsewhere. -/
def ppLoopC5 (d : Nat) (skip : Bool) : List Char → Option (List Char)
  | [] => some []
  | c :: rest =>
    if skip then ppLoopC5 d false rest
    else if c = '\x7b' then
      (ppLoopC5 (d + 1) true rest).map fun out =>
        '\x7b' :: '\n' :: (stepChars (d + 1) ++ out)
    else if c = '\x7d' then
      match d, rest with
      | 0, _ => none
      | e + 1, [] => some ('\n' :: (stepChars e ++ ['\x7d']))
      | _ + 1, [_] => none
      | e + 1, _ :: p :: _ =>
        if p = '\x7d' then
          (ppLoopC5 e false rest).map fun out =>
            '\n' :: (stepChars e ++ ['\x7d'] ++ out)
        else
          (ppLoopC5 e true rest).map fun out =>
            '\n' :: (stepChars e ++ ['\x7d'] ++ '\n' :: (stepChars e ++ out))
    else
      (ppLoopC5 d false rest).map fun out => c :: out

/-- The queries reachable through the public Query builder surface. -/
inductive Query.Reachable : Query → Prop where
  | new (name : Str) (qb : QueryBlock) : Query.Reachable (NewQuery name qb)
  | withParam (q : Query) (ps : List Param) :
      Query.Reachable q → Query.Reachable (q.WithParam ps)
  | withVarBlocks (q : Query) (vbs : List VarBlock) :
      Query.Reachable q → Query.Reachable (q.WithVarBlocks vbs)
  | withQueryBlocks (q : Query) (qbs : List QueryBlock) :
      Query.Reachable q → Query.Reachable (q.WithQueryBlocks qbs)
  | withFragments (q : Query) (fs : List Fragment) :
      Query.Reachable q → Query.Reachable (q.WithFragments fs)

/-- The query blocks reachable through the public QueryBlock builder
surface. -/
inductive QueryBlock.Reachable : QueryBlock → Prop where
  | new (name criteria : Str) : QueryBlock.Reachable (NewQueryBlock name criteria)
  | withCriteria (qb : QueryBlock) (cs : List Str) :
      QueryBlock.Reachable qb → QueryBlock.Reachable (qb.WithCriteria cs)
  | withDirectives (qb : QueryBlock) (ds : List Str) :
      QueryBlock.Reachable qb → QueryBlock.Reachable (qb.WithDirectives ds)
  | withAttributes (qb : QueryBlock) (as_ : List Attribute) :
      QueryBlock.Reachable qb → QueryBlock.Reachable (qb.WithAttributes as_)

/-- Emptiness of a list is decidable without element equality. -/
instance (priority := low) decListNil {α : Type} (l : List α) : Decidable (l = []) :=
  match l with
  | [] => isTrue rfl
  | _ :: _ => isFalse (by simp)

theorem goJoin_append (sep : String) (xs : List String) :
    ∀ ys, xs ≠ [] → ys ≠ [] →
      goJoin sep (xs ++ ys) = goJoin sep xs ++ sep ++ goJoin sep ys := by
  induction xs with
  | nil => intro ys h _; exact absurd rfl h
  | cons x xs ih =>
    intro ys _ hy
    cases xs with
    | nil =>
      cases ys with
      | nil => exact absurd rfl hy
      | cons y ys => simp [goJoin]
    | cons x' xs' =>
      have ih' := ih ys (List.cons_ne_nil x' xs') hy
      simp only [List.cons_append] at ih' ⊢
      simp only [goJoin, ih', String.append_assoc]

theorem string_data_nil (s : String) : s.data = [] ↔ s = "" := by
  cases s
  simp [String.ext_iff]

theorem goJoin_sp_empty (ts : List String) :
    goJoin " " ts = "" ↔ ts = [] ∨ ts = [""] := by
  match ts with
  | [] => simp [goJoin]
  | [x] => simp [goJoin]
  | x :: y :: ys =>
    simp only [goJoin]
    constructor
    · intro h
      have : (x ++ " " ++ goJoin " " (y :: ys)).data = [] := by rw [h]
      simp [String.data_append] at this
    · intro h; simp at h

theorem strBF_iff (s : String) : strBF s = true ↔ BraceFree s := by
  simp [strBF, BraceFree, List.all_eq_true]

theorem braceFree_empty : BraceFree "" := by
  intro c hc
  rw [show ("" : String).data = [] from rfl] at hc
  cases hc

theorem braceFree_append {a b : String} (ha : BraceFree a) (hb : BraceFree b) :
    BraceFree (a ++ b) := by
  intro c hc
  rw [String.data_append] at hc
  rcases List.mem_append.1 hc with h | h
  · exact ha c h
  · exact hb c h

theorem braceFree_goJoin {sep : String} (hsep : BraceFree sep) :
    ∀ {ts : List String}, (∀ t ∈ ts, BraceFree t) → BraceFree (goJoin sep ts) := by
  intro ts
  induction ts with
  | nil => intro _; exact braceFree_empty
  | cons x xs ih =>
    intro h
    cases xs with
    | nil => exact h x (by simp)
    | cons y ys =>
      simp only [goJoin]
      exact braceFree_append (braceFree_append (h x (by simp)) hsep)
        (ih fun t ht => h t (by simp [ht]))

theorem braceFree_ne_brace {t : String} (h : BraceFree t) :
    t ≠ "\x7b" ∧ t ≠ "\x7d" := by
  constructor
  · intro he; exact ((h '\x7b' (by rw [he]; decide)).1 rfl).elim
  · intro he; exact ((h '\x7d' (by rw [he]; decide)).2 rfl).elim

theorem mem_data_goJoin {c : Char} {t : String} (hc : c ∈ t.data) :
    ∀ {ts : List String}, t ∈ ts → c ∈ (goJoin " " ts).data := by
  intro ts
  induction ts with
  | nil => intro h; simp at h
  | cons x xs ih =>
    intro h
    cases xs with
    | nil =>
      rcases List.mem_singleton.1 h with rfl
      exact hc
    | cons y ys =>
      simp only [goJoin, String.data_append]
      rcases List.mem_cons.1 h with rfl | h
      · simp [hc]
      · simp [ih h]

theorem option_isSome_map {α β : Type} (f : α → β) (o : Option α) :
    (o.map f).isSome = o.isSome := by
  cases o <;> rfl

/-- C1: evaluation of the compact render at the spec's end-to-end
example. Every component is joined with a space, so the block name and
its func clause come out separated; the render therefore differs from
the claimed string, which attaches the parenthesis directly to
getUser. -/
theorem c1_getUser_render :
    qGetUser.String =
      "query GetUserQuery \x7b getUser (func: has(user)) \x7b name age \x7d \x7d" ∧
    qGetUser.String ≠
      "query GetUserQuery \x7b getUser(func: has(user)) \x7b name age \x7d \x7d" := by
  constructor
  · decide
  · decide

/-- C3: evaluation of the compact render for a named query with one
parameter. The code emits the open parenthesis, the joined parameter
list and the close parenthesis as three space-joined components, so the
header has a space between the query name and the parenthesis and
spaces inside the parentheses, unlike the claimed shape. -/
theorem c3_param_header :
    qParam.String = "query Q ( id: string ) \x7b b (func: c) \x7b \x7d \x7d" ∧
    qParam.String ≠ "query Q(id: string) \x7b b (func: c) \x7b \x7d \x7d" := by
  constructor
  · decide
  · decide

/-- C2 counterexample: PrettyPrint of the single-block query does not
produce the claimed two lines. -/
theorem c2_counterexample :
    qSingle.PrettyPrint ≠ some "q (func: true) \x7b\n\x7d" := by
  decide

/-- C2 amended: PrettyPrint of the unnamed single-block query yields
the outer braces as their own lines, an indent-only line after the
inner opening brace, and two trailing indent spaces after the inner
closing brace. -/
theorem c2_pretty_render :
    qSingle.PrettyPrint =
      some "\x7b\n  q (func: true) \x7b\n    \n  \x7d  \n\x7d" := by
  decide

/-- C5 counterexample: a scan that, at a non-final closing brace whose
two-ahead character is a closing brace, emits nothing further and takes
no extra advance (as the claim words it) disagrees with the code's scan
on the single-block query. -/
theorem c5_counterexample :
    (ppLoopC5 0 false qSingle.String.data).map (fun cs => (⟨cs⟩ : Str)) ≠
      qSingle.PrettyPrint := by
  decide

/-- C5 amended: after a closing brace followed by at least two
characters, the scan emits the extra newline exactly when the character
two ahead is not a closing brace, and in either case re-emits the
decremented indent and advances one extra character (the character
right after the brace is dropped unread). -/
theorem c5_closing_step (e : Nat) (x p : Char) (rest : List Char) :
    ppLoop (e + 1) false ('\x7d' :: x :: p :: rest) =
      (ppLoop e false (p :: rest)).map fun out =>
        '\n' :: (stepChars e ++ ['\x7d'] ++
          (if p = '\x7d' then [] else ['\n']) ++ (stepChars e ++ out)) :=
  rfl

/-- C6: the compact render is the space-join of the optional header,
the optional parenthesised parameter list, the outer opening brace, the
variable blocks in append order, then the query blocks in append order,
the outer closing brace, then the fragments in append order. -/
theorem c6_render_order (q : Query) :
    q.String = goJoin " "
      ((if q.Name ≠ "" then ["query", q.Name] else []) ++
        (if q.Params.isEmpty then [] else
          ["(", goJoin ", " (q.Params.map Param.String), ")"]) ++
        ["\x7b"] ++ q.VarBlocks.map VarBlock.String ++
        q.QueryBlocks.map QueryBlock.String ++
        ["\x7d"] ++ q.Fragments.map Fragment.String) := by
  simp [Query.String, Query.concatenate]

/-- C7: both renders leave the query unchanged through the
state-threaded method forms, and rendering again after a render
produces the identical output. -/
theorem c7_render_stable (q : Query) :
    q.StringM.2 = q ∧ (q.StringM.2).StringM.1 = q.StringM.1 ∧
    q.PrettyPrintM.2 = q ∧ (q.PrettyPrintM.2).PrettyPrintM.1 = q.PrettyPrintM.1 :=
  ⟨rfl, rfl, rfl, rfl⟩

/-- C8: a query block built from the constructor and the three
builders holds the construction criterion first followed by the
appended ones, and renders them comma-joined inside a single func
clause. -/
theorem c8_queryblock_criteria (n c : Str) (cs ds : List Str) (as_ : List Attribute) :
    ((((NewQueryBlock n c).WithCriteria cs).WithDirectives ds).WithAttributes as_).Criteria
        = c :: cs ∧
    ((((NewQueryBlock n c).WithCriteria cs).WithDirectives ds).WithAttributes as_).String
        = goJoin " " ([n, "(func: " ++ goJoin ", " (c :: cs) ++ ")"] ++ ds ++
            ["\x7b"] ++ Attribute.StringList as_ ++ ["\x7d"]) := by
  constructor
  · simp [NewQueryBlock, QueryBlock.WithCriteria, QueryBlock.WithDirectives,
      QueryBlock.WithAttributes]
  · simp [NewQueryBlock, QueryBlock.WithCriteria, QueryBlock.WithDirectives,
      QueryBlock.WithAttributes, QueryBlock.String]

/-- C10: every reachable query keeps at least one query block, every
reachable query block keeps at least one criterion, and each builder
method only appends to its field, leaving the rest unchanged. -/
theorem c10_builder_invariants :
    (∀ q, Query.Reachable q → q.QueryBlocks ≠ []) ∧
    (∀ qb, QueryBlock.Reachable qb → qb.Criteria ≠ []) ∧
    (∀ q ps, (Query.WithParam q ps).Params = q.Params ++ ps ∧
      (Query.WithParam q ps).QueryBlocks = q.QueryBlocks) ∧
    (∀ q vbs, (Query.WithVarBlocks q vbs).VarBlocks = q.VarBlocks ++ vbs ∧
      (Query.WithVarBlocks q vbs).QueryBlocks = q.QueryBlocks) ∧
    (∀ q qbs, (Query.WithQueryBlocks q qbs).QueryBlocks = q.QueryBlocks ++ qbs) ∧
    (∀ q fs, (Query.WithFragments q fs).Fragments = q.Fragments ++ fs ∧
      (Query.WithFragments q fs).QueryBlocks = q.QueryBlocks) ∧
    (∀ qb cs, (QueryBlock.WithCriteria qb cs).Criteria = qb.Criteria ++ cs) ∧
    (∀ qb ds, (QueryBlock.WithDirectives qb ds).Directives = qb.Directives ++ ds ∧
      (QueryBlock.WithDirectives qb ds).Criteria = qb.Criteria) ∧
    (∀ qb as_, (QueryBlock.WithAttributes qb as_).Attributes = qb.Attributes ++ as_ ∧
      (QueryBlock.WithAttributes qb as_).Criteria = qb.Criteria) := by
  refine ⟨?_, ?_, fun _ _ => ⟨rfl, rfl⟩, fun _ _ => ⟨rfl, rfl⟩, fun _ _ => rfl,
    fun _ _ => ⟨rfl, rfl⟩, fun _ _ => rfl, fun _ _ => ⟨rfl, rfl⟩, fun _ _ => ⟨rfl, rfl⟩⟩
  · intro q h
    induction h with
    | new name qb => simp [NewQuery]
    | withParam q ps _ ih => simpa [Query.WithParam] using ih
    | withVarBlocks q vbs _ ih => simpa [Query.WithVarBlocks] using ih
    | withQueryBlocks q qbs _ ih =>
      simp only [Query.WithQueryBlocks]
      intro he
      exact ih (List.append_eq_nil.mp he).1
    | withFragments q fs _ ih => simpa [Query.WithFragments] using ih
  · intro qb h
    induction h with
    | new name criteria => simp [NewQueryBlock]
    | withCriteria qb cs _ ih =>
      simp only [QueryBlock.WithCriteria]
      intro he
      exact ih (List.append_eq_nil.mp he).1
    | withDirectives qb ds _ ih => simpa [QueryBlock.WithDirectives] using ih
    | withAttributes qb as_ _ ih => simpa [QueryBlock.WithAttributes] using ih

/-- Witness for C10 at a concrete query and block. -/
theorem c10_witness :
    (NewQuery "n" (NewQueryBlock "b" "c")).QueryBlocks ≠ [] ∧
    (NewQueryBlock "b" "c").Criteria ≠ [] :=
  ⟨c10_builder_invariants.1 _ (Query.Reachable.new "n" (NewQueryBlock "b" "c")),
    c10_builder_invariants.2.1 _ (QueryBlock.Reachable.new "b" "c")⟩

/-- Converts the boolean brace check into the predicate. -/
theorem braceFree_of_strBF {s : String} (h : strBF s = true) : BraceFree s :=
  (strBF_iff s).1 h

/-- C9: an attribute with at least one child renders both brace
tokens, while a childless attribute whose caller-supplied strings are
brace-free renders no brace character at all. -/
theorem c9_attribute_braces (a : Attribute) :
    (a.Attributes ≠ [] → '\x7b' ∈ a.String.data ∧ '\x7d' ∈ a.String.data) ∧
    (a.Attributes = [] → Attribute.bfB a = true → BraceFree a.String) := by
  obtain ⟨al, n, ds, ch⟩ := a
  constructor
  · intro h
    simp only [Attribute.Attributes] at h
    simp only [Attribute.String]
    have hb : ('\x7b' : Char) ∈ ("\x7b" : String).data := by decide
    have hd : ('\x7d' : Char) ∈ ("\x7d" : String).data := by decide
    exact ⟨mem_data_goJoin hb (by simp [List.isEmpty_iff, h]),
      mem_data_goJoin hd (by simp [List.isEmpty_iff, h])⟩
  · intro h hbf
    simp only [Attribute.Attributes] at h
    subst h
    simp only [Attribute.bfB, Attribute.bfListB, Bool.and_eq_true, List.all_eq_true,
      strBF_iff] at hbf
    obtain ⟨⟨⟨hal, hn⟩, hds⟩, -⟩ := hbf
    simp only [Attribute.String, List.isEmpty_nil, if_true]
    refine braceFree_goJoin (by decide) ?_
    intro t ht
    rw [List.append_nil] at ht
    rcases List.mem_append.1 ht with ht | ht
    · rcases List.mem_append.1 ht with ht | ht
      · split at ht
        · simp only [List.mem_cons, List.not_mem_nil, or_false] at ht
          rcases ht with rfl | rfl
          · exact hal
          · decide
        · cases ht
      · simp only [List.mem_singleton] at ht
        subst ht
        exact hn
    · exact hds t ht

/-- Witness for C9: a one-child attribute renders braces, and the
childless brace-free attribute age renders none. -/
theorem c9_witness :
    ('\x7b' ∈ ((NewAttribute "person").WithAttributes [NewAttribute "name"]).String.data ∧
      '\x7d' ∈ ((NewAttribute "person").WithAttributes [NewAttribute "name"]).String.data) ∧
    BraceFree (NewAttribute "age").String :=
  ⟨(c9_attribute_braces _).1 (by decide),
    (c9_attribute_braces _).2 (by decide) (by decide)⟩

/-- A skipped character is dropped unread. -/
theorem ppLoop_skip_cons (d : Nat) (c : Char) (cs : List Char) :
    ppLoop d true (c :: cs) = ppLoop d false cs := rfl

/-- Unfolding the scan at an ordinary character. -/
theorem ppLoop_default (d : Nat) (x : Char) (rest : List Char)
    (h1 : x ≠ '\x7b') (h2 : x ≠ '\x7d') :
    ppLoop d false (x :: rest) = (ppLoop d false rest).map fun out => x :: out := by
  simp only [ppLoop]
  rw [if_neg h1, if_neg h2, if_neg Bool.false_ne_true]

/-- Unfolding the scan at an opening brace. -/
theorem ppLoop_open (d : Nat) (rest : List Char) :
    ppLoop d false ('\x7b' :: rest) =
      (ppLoop (d + 1) true rest).map fun out =>
        '\x7b' :: '\n' :: (stepChars (d + 1) ++ out) := by
  simp only [ppLoop]
  rw [if_neg Bool.false_ne_true, if_true]

/-- Unfolding the scan at a closing brace with two or more characters
left. -/
theorem ppLoop_close_step (e : Nat) (x p : Char) (rest : List Char) :
    ppLoop (e + 1) false ('\x7d' :: x :: p :: rest) =
      (ppLoop e false (p :: rest)).map fun out =>
        '\n' :: (stepChars e ++ ['\x7d'] ++
          (if p = '\x7d' then [] else ['\n']) ++ (stepChars e ++ out)) :=
  rfl

/-- Ordinary characters are copied through, preserving success of the
rest of the scan. -/
theorem ppLoop_copy (xs : List Char) (hx : ∀ c ∈ xs, c ≠ '\x7b' ∧ c ≠ '\x7d') :
    ∀ (d : Nat) (cs : List Char),
      (ppLoop d false (xs ++ cs)).isSome = (ppLoop d false cs).isSome := by
  induction xs with
  | nil => intro d cs; rfl
  | cons x xs ih =>
    intro d cs
    have hx1 := hx x (by simp)
    have hxs : ∀ c ∈ xs, c ≠ '\x7b' ∧ c ≠ '\x7d' := fun c hc => hx c (by simp [hc])
    calc (ppLoop d false ((x :: xs) ++ cs)).isSome
        = ((ppLoop d false (xs ++ cs)).map fun out => x :: out).isSome := by
          rw [List.cons_append, ppLoop_default d x (xs ++ cs) hx1.1 hx1.2]
      _ = (ppLoop d false (xs ++ cs)).isSome := option_isSome_map _ _
      _ = (ppLoop d false cs).isSome := ih hxs d cs

/-- The space-join of a token list, at the character level. -/
theorem data_goJoin_cons (t t' : Str) (ts : List Str) :
    (goJoin " " (t :: t' :: ts)).data =
      t.data ++ ' ' :: (goJoin " " (t' :: ts)).data := by
  simp only [goJoin, String.data_append, List.append_assoc]
  rfl

/-- A token list accepted by scanOk is scanned to completion. -/
theorem ppLoop_scanOk : ∀ (ts : List Str) (d : Nat), scanOk d ts →
    (ppLoop d false (goJoin " " ts).data).isSome = true := by
  intro ts
  induction ts with
  | nil => intro d _; rfl
  | cons t ts ih =>
    intro d hs
    by_cases hb : t = "\x7b"
    · subst hb
      rw [scanOk, if_pos rfl] at hs
      cases ts with
      | nil =>
        rw [show (goJoin " " ["\x7b"]).data = ['\x7b'] from rfl, ppLoop_open]
        rfl
      | cons t' ts' =>
        rw [data_goJoin_cons, show ("\x7b" : Str).data = ['\x7b'] from rfl,
          List.singleton_append, ppLoop_open, ppLoop_skip_cons, option_isSome_map]
        exact ih (d + 1) hs
    · by_cases hc : t = "\x7d"
      · subst hc
        rw [scanOk, if_neg (by decide), if_pos rfl] at hs
        obtain ⟨hd, hrest, hsc⟩ := hs
        obtain ⟨e, rfl⟩ : ∃ e, d = e + 1 :=
          ⟨d - 1, (Nat.succ_pred_eq_of_pos hd).symm⟩
        cases ts with
        | nil => rfl
        | cons t' ts' =>
          have hne : goJoin " " (t' :: ts') ≠ "" := by
            rcases hrest with h | h
            · cases h
            · exact h
          have hdata : (goJoin " " (t' :: ts')).data ≠ [] := by
            intro h
            exact hne ((string_data_nil _).1 h)
          obtain ⟨p, J, hJ⟩ : ∃ p J, (goJoin " " (t' :: ts')).data = p :: J := by
            cases hJd : (goJoin " " (t' :: ts')).data with
            | nil => exact absurd hJd hdata
            | cons p J => exact ⟨p, J, rfl⟩
          rw [data_goJoin_cons, show ("\x7d" : Str).data = ['\x7d'] from rfl,
            List.singleton_append, hJ, ppLoop_close_step, option_isSome_map, ← hJ]
          exact ih e (by simpa using hsc)
      · rw [scanOk, if_neg hb, if_neg hc] at hs
        obtain ⟨hbf, hsc⟩ := hs
        have hxs : ∀ c ∈ t.data, c ≠ '\x7b' ∧ c ≠ '\x7d' := hbf
        cases ts with
        | nil =>
          have := ppLoop_copy t.data hxs d []
          rw [List.append_nil] at this
          rw [show goJoin " " [t] = t from rfl, this]
          rfl
        | cons t' ts' =>
          have hall : ∀ c ∈ t.data ++ [' '], c ≠ '\x7b' ∧ c ≠ '\x7d' := by
            intro c hc
            rcases List.mem_append.1 hc with h | h
            · exact hxs c h
            · rcases List.mem_singleton.1 h with rfl
              exact ⟨by decide, by decide⟩
          have := ppLoop_copy (t.data ++ [' ']) hall d (goJoin " " (t' :: ts')).data
          rw [List.append_assoc, List.singleton_append] at this
          rw [data_goJoin_cons, this]
          exact ih d hsc

/-- The empty token segment is neutral. -/
theorem neutral_nil : Neutral [] := fun _ _ h => h

/-- Neutral segments concatenate. -/
theorem neutral_append {xs ys : List Str} (hx : Neutral xs) (hy : Neutral ys) :
    Neutral (xs ++ ys) := by
  intro d zs h
  rw [List.append_assoc]
  exact hx d (ys ++ zs) (hy d zs h)

/-- A brace-free token in front of a neutral segment stays neutral. -/
theorem neutral_free_cons {t : Str} (ht : BraceFree t) {ts : List Str}
    (hts : Neutral ts) : Neutral (t :: ts) := by
  intro d ys h
  have hne := braceFree_ne_brace ht
  rw [List.cons_append, depthOk, if_neg hne.1, if_neg hne.2]
  exact ⟨ht, hts d ys h⟩

/-- A list of brace-free tokens is neutral. -/
theorem neutral_free_list {ts : List Str} (h : ∀ t ∈ ts, BraceFree t) :
    Neutral ts := by
  induction ts with
  | nil => exact neutral_nil
  | cons t ts ih =>
    exact neutral_free_cons (h t (by simp)) (ih fun t' ht' => h t' (by simp [ht']))

/-- Wrapping a neutral segment in a brace pair stays neutral. -/
theorem neutral_wrap {ts : List Str} (h : Neutral ts) :
    Neutral (["\x7b"] ++ ts ++ ["\x7d"]) := by
  intro d ys hy
  have inner : depthOk (d + 1) ("\x7d" :: ys) := by
    rw [depthOk, if_neg (by decide), if_pos rfl]
    exact ⟨Nat.succ_pos d, by simpa using hy⟩
  have step := h (d + 1) ("\x7d" :: ys) inner
  have hsh : (["\x7b"] ++ ts ++ ["\x7d"]) ++ ys = "\x7b" :: (ts ++ "\x7d" :: ys) := by
    simp [List.append_assoc]
  rw [hsh, depthOk, if_pos rfl]
  exact step

/-- A neutral segment on its own satisfies the depth bookkeeping. -/
theorem neutral_depthOk {ts : List Str} (h : Neutral ts) (d : Nat) : depthOk d ts := by
  have := h d [] trivial
  rwa [List.append_nil] at this

/-- Depth bookkeeping upgrades to the full scan condition when the
token list ends with a closing brace (or is empty): past any closing
brace the rest of the list still holds that final closing-brace token,
so its join cannot be empty. -/
theorem scanOk_of_depthOk : ∀ (ts : List Str) (d : Nat), depthOk d ts →
    (ts = [] ∨ ts.getLast? = some "\x7d") → scanOk d ts := by
  intro ts
  induction ts with
  | nil => intro d _ _; trivial
  | cons t ts ih =>
    intro d hd hl
    have hlast : ts = [] ∨ ts.getLast? = some "\x7d" := by
      cases ts with
      | nil => exact Or.inl rfl
      | cons t' ts' =>
        rcases hl with h | h
        · cases h
        · right
          rwa [List.getLast?_cons_cons] at h
    by_cases hb : t = "\x7b"
    · subst hb
      rw [depthOk, if_pos rfl] at hd
      rw [scanOk, if_pos rfl]
      exact ih (d + 1) hd hlast
    · by_cases hc : t = "\x7d"
      · subst hc
        rw [depthOk, if_neg (by decide), if_pos rfl] at hd
        rw [scanOk, if_neg (by decide), if_pos rfl]
        refine ⟨hd.1, ?_, ih (d - 1) hd.2 hlast⟩
        rcases hlast with rfl | h
        · exact Or.inl rfl
        · right
          intro hjoin
          rcases (goJoin_sp_empty _).1 hjoin with rfl | rfl
          · cases h
          · rw [show ([""] : List Str).getLast? = some "" from rfl] at h
            exact absurd (Option.some.inj h) (by decide)
      · rw [depthOk, if_neg hb, if_neg hc] at hd
        rw [scanOk, if_neg hb, if_neg hc]
        exact ⟨hd.1, ih d hd.2 hlast⟩

/-- Join of a cons with a nonempty tail. -/
theorem goJoin_cons_ne (sep : String) (x : String) (ts : List String) (h : ts ≠ []) :
    goJoin sep (x :: ts) = x ++ sep ++ goJoin sep ts := by
  cases ts with
  | nil => exact absurd rfl h
  | cons y ys => rfl

/-- An attribute always produces at least its name token. -/
theorem attr_tokens_ne_nil (a : Attribute) : Attribute.tokens a ≠ [] := by
  obtain ⟨al, n, ds, ch⟩ := a
  simp [Attribute.tokens]

/-- The flattened tokens of an attribute list vanish only for the
empty list. -/
theorem attr_tokensList_eq_nil (l : List Attribute) :
    Attribute.tokensList l = [] ↔ l = [] := by
  cases l with
  | nil => simp [Attribute.tokensList]
  | cons a as =>
    simp [Attribute.tokensList, List.append_eq_nil, attr_tokens_ne_nil a]

/-- The one-per-attribute renders vanish only for the empty list. -/
theorem attr_StringList_eq_nil (l : List Attribute) :
    Attribute.StringList l = [] ↔ l = [] := by
  cases l with
  | nil => simp [Attribute.StringList]
  | cons a as => simp [Attribute.StringList]

/-- Spaced joins agree on appends whose halves join equally and vanish
together. -/
theorem goJoin_congr_append {X Y R S : List Str}
    (hXY : goJoin " " X = goJoin " " Y) (hXYnil : X = [] ↔ Y = [])
    (hRS : goJoin " " R = goJoin " " S) (hRSnil : R = [] ↔ S = []) :
    goJoin " " (X ++ R) = goJoin " " (Y ++ S) := by
  by_cases hX : X = []
  · have hY := hXYnil.1 hX
    rw [hX, hY, List.nil_append, List.nil_append]
    exact hRS
  · have hY : Y ≠ [] := fun h => hX (hXYnil.2 h)
    by_cases hR : R = []
    · have hS := hRSnil.1 hR
      rw [hR, hS, List.append_nil, List.append_nil]
      exact hXY
    · have hS : S ≠ [] := fun h => hR (hRSnil.2 h)
      rw [goJoin_append " " X R hX hR, goJoin_append " " Y S hY hS, hXY, hRS]

/-- Appends of lists that vanish together vanish together. -/
theorem append_nil_iff_congr {X Y R S : List Str}
    (h1 : X = [] ↔ Y = []) (h2 : R = [] ↔ S = []) :
    (X ++ R) = [] ↔ (Y ++ S) = [] := by
  simp [List.append_eq_nil, h1, h2]

mutual

/-- The flattened tokens of an attribute join back to its render. -/
theorem attr_join_tokens : ∀ (a : Attribute),
    goJoin " " (Attribute.tokens a) = Attribute.String a
  | .mk al n ds ch => by
    simp only [Attribute.tokens, Attribute.String]
    by_cases hch : ch.isEmpty
    · rw [if_pos hch, if_pos hch]
    · rw [if_neg hch, if_neg hch]
      exact goJoin_congr_append rfl Iff.rfl
        (goJoin_congr_append
          (goJoin_congr_append rfl Iff.rfl
            (attr_join_tokensList ch).1 (attr_join_tokensList ch).2)
          (append_nil_iff_congr Iff.rfl (attr_join_tokensList ch).2)
          rfl Iff.rfl)
        (append_nil_iff_congr
          (append_nil_iff_congr Iff.rfl (attr_join_tokensList ch).2) Iff.rfl)

/-- The flattened tokens of an attribute list join back to the joined
one-per-attribute renders, and both vanish together. -/
theorem attr_join_tokensList : ∀ (l : List Attribute),
    goJoin " " (Attribute.tokensList l) = goJoin " " (Attribute.StringList l) ∧
      (Attribute.tokensList l = [] ↔ Attribute.StringList l = [])
  | [] => ⟨rfl, Iff.rfl⟩
  | a :: as => by
    refine ⟨?_, ?_⟩
    · show goJoin " " (Attribute.tokens a ++ Attribute.tokensList as) =
        goJoin " " (Attribute.String a :: Attribute.StringList as)
      by_cases has : as = []
      · subst has
        rw [show Attribute.tokensList [] = [] from rfl,
          show Attribute.StringList [] = [] from rfl, List.append_nil]
        exact attr_join_tokens a
      · have ht : Attribute.tokensList as ≠ [] :=
          fun h => has ((attr_tokensList_eq_nil as).1 h)
        have hs : Attribute.StringList as ≠ [] :=
          fun h => has ((attr_StringList_eq_nil as).1 h)
        rw [goJoin_append " " _ _ (attr_tokens_ne_nil a) ht,
          goJoin_cons_ne " " _ _ hs, attr_join_tokens a,
          (attr_join_tokensList as).1]
    · show Attribute.tokens a ++ Attribute.tokensList as = [] ↔
        Attribute.String a :: Attribute.StringList as = []
      simp [List.append_eq_nil, attr_tokens_ne_nil a]

end

/-- A query block's token list ends with its closing brace, so it is
never empty. -/
theorem qb_tokens_ne_nil (qb : QueryBlock) : QueryBlock.tokens qb ≠ [] := by
  simp [QueryBlock.tokens]

/-- A variable block's token list is never empty. -/
theorem vb_tokens_ne_nil (vb : VarBlock) : VarBlock.tokens vb ≠ [] := by
  simp [VarBlock.tokens]

/-- A fragment's token list is never empty. -/
theorem frag_tokens_ne_nil (f : Fragment) : Fragment.tokens f ≠ [] := by
  simp [Fragment.tokens]

/-- The flattened tokens of a query block join back to its render. -/
theorem qb_join_tokens (qb : QueryBlock) :
    goJoin " " (QueryBlock.tokens qb) = QueryBlock.String qb := by
  simp only [QueryBlock.tokens, QueryBlock.String]
  exact goJoin_congr_append
    (goJoin_congr_append rfl Iff.rfl
      (attr_join_tokensList _).1 (attr_join_tokensList _).2)
    (append_nil_iff_congr Iff.rfl (attr_join_tokensList _).2)
    rfl Iff.rfl

/-- The flattened tokens of a variable block join back to its render. -/
theorem vb_join_tokens (vb : VarBlock) :
    goJoin " " (VarBlock.tokens vb) = VarBlock.String vb := by
  simp only [VarBlock.tokens, VarBlock.String]
  exact goJoin_congr_append
    (goJoin_congr_append rfl Iff.rfl
      (attr_join_tokensList _).1 (attr_join_tokensList _).2)
    (append_nil_iff_congr Iff.rfl (attr_join_tokensList _).2)
    rfl Iff.rfl

/-- The flattened tokens of a fragment join back to its render. -/
theorem frag_join_tokens (f : Fragment) :
    goJoin " " (Fragment.tokens f) = Fragment.String f := by
  simp only [Fragment.tokens, Fragment.String]
  exact goJoin_congr_append
    (goJoin_congr_append rfl Iff.rfl
      (attr_join_tokensList _).1 (attr_join_tokensList _).2)
    (append_nil_iff_congr Iff.rfl (attr_join_tokensList _).2)
    rfl Iff.rfl

/-- For any per-element tokenisation that joins back to the
per-element render and never produces an empty token list, the
flattened tokens of a list join back to the joined renders, and both
vanish together. -/
theorem joinList_flatten {α : Type} (T : α → List Str) (S : α → Str)
    (hTS : ∀ x, goJoin " " (T x) = S x) (hT : ∀ x, T x ≠ []) :
    ∀ l : List α, goJoin " " ((l.map T).flatten) = goJoin " " (l.map S) ∧
      ((l.map T).flatten = [] ↔ l.map S = []) := by
  intro l
  induction l with
  | nil => exact ⟨rfl, Iff.rfl⟩
  | cons x xs ih =>
    rw [List.map_cons, List.map_cons, List.flatten_cons]
    refine ⟨?_, ?_⟩
    · by_cases hxs : xs = []
      · subst hxs
        simp only [List.map_nil, List.flatten_nil, List.append_nil]
        rw [show goJoin " " [S x] = S x from rfl]
        exact hTS x
      · have hflat : ((xs.map T).flatten : List Str) ≠ [] := by
          intro h
          exact hxs (by simpa [List.map_eq_nil_iff] using ih.2.1 h)
        have hmap : xs.map S ≠ [] := by simp [List.map_eq_nil_iff, hxs]
        rw [goJoin_append " " _ _ (hT x) hflat, goJoin_cons_ne " " _ _ hmap,
          hTS x, ih.1]
    · simp [List.append_eq_nil, hT x]

/-- The compact render of a query is the spaced join of its flattened
token list. -/
theorem query_join_tokens (q : Query) : q.String = goJoin " " (Query.tokens q) := by
  have hV := joinList_flatten VarBlock.tokens VarBlock.String vb_join_tokens
    vb_tokens_ne_nil q.VarBlocks
  have hQ := joinList_flatten QueryBlock.tokens QueryBlock.String qb_join_tokens
    qb_tokens_ne_nil q.QueryBlocks
  have hF := joinList_flatten Fragment.tokens Fragment.String frag_join_tokens
    frag_tokens_ne_nil q.Fragments
  have hH : (if q.Params.isEmpty then ([] : List Str) else
      ["("] ++ [goJoin ", " (q.Params.map Param.String)] ++ [")"]) =
      (if q.Params.isEmpty then [] else
        ["(", goJoin ", " (q.Params.map Param.String), ")"]) := by
    split
    · rfl
    · rfl
  rw [Query.String]
  simp only [Query.concatenate, Query.tokens, hH]
  exact goJoin_congr_append
    (goJoin_congr_append
      (goJoin_congr_append
        (goJoin_congr_append rfl Iff.rfl hV.1.symm hV.2.symm)
        (append_nil_iff_congr Iff.rfl hV.2.symm)
        hQ.1.symm hQ.2.symm)
      (append_nil_iff_congr (append_nil_iff_congr Iff.rfl hV.2.symm) hQ.2.symm)
      rfl Iff.rfl)
    (append_nil_iff_congr
      (append_nil_iff_congr (append_nil_iff_congr Iff.rfl hV.2.symm) hQ.2.symm)
      Iff.rfl)
    hF.1.symm hF.2.symm

/-- Transport neutrality along a list equality. -/
theorem neutral_congr {xs ys : List Str} (h : xs = ys) (hx : Neutral xs) :
    Neutral ys := h ▸ hx

mutual

/-- The tokens of a brace-free attribute form a neutral segment. -/
theorem attr_tokens_neutral : ∀ (a : Attribute), Attribute.bfB a = true →
    Neutral (Attribute.tokens a)
  | .mk al n ds ch => by
    intro h
    simp only [Attribute.bfB, Bool.and_eq_true, List.all_eq_true, strBF_iff] at h
    obtain ⟨⟨⟨hal, hn⟩, hds⟩, hch⟩ := h
    simp only [Attribute.tokens]
    refine neutral_append (neutral_append (neutral_append ?_ ?_) ?_) ?_
    · split
      · refine neutral_free_list ?_
        intro t ht
        simp only [List.mem_cons, List.not_mem_nil, or_false] at ht
        rcases ht with rfl | rfl
        · exact hal
        · decide
      · exact neutral_nil
    · exact neutral_free_cons hn neutral_nil
    · exact neutral_free_list hds
    · split
      · exact neutral_nil
      · exact neutral_wrap (attr_tokensList_neutral ch hch)

/-- The tokens of a brace-free attribute list form a neutral segment. -/
theorem attr_tokensList_neutral : ∀ (l : List Attribute),
    Attribute.bfListB l = true → Neutral (Attribute.tokensList l)
  | [] => fun _ => neutral_nil
  | a :: as => by
    intro h
    simp only [Attribute.bfListB, Bool.and_eq_true] at h
    exact neutral_append (attr_tokens_neutral a h.1) (attr_tokensList_neutral as h.2)

end

/-- A brace-free parameter renders to a brace-free string. -/
theorem param_render_bf (p : Param) (h : Param.bfB p = true) :
    BraceFree (Param.String p) := by
  simp only [Param.bfB, Bool.and_eq_true, strBF_iff] at h
  obtain ⟨⟨hn, ht⟩, hd⟩ := h
  rw [Param.String]
  refine braceFree_append (braceFree_append (braceFree_append hn (by decide)) ht) ?_
  split
  · exact braceFree_append (by decide) hd
  · exact braceFree_empty

/-- The tokens of a brace-free query block form a neutral segment. -/
theorem qb_tokens_neutral (qb : QueryBlock) (h : QueryBlock.bfB qb = true) :
    Neutral (QueryBlock.tokens qb) := by
  simp only [QueryBlock.bfB, Bool.and_eq_true, List.all_eq_true, strBF_iff] at h
  obtain ⟨⟨⟨hn, hcr⟩, hds⟩, hat⟩ := h
  have hfunc : BraceFree ("(func: " ++ goJoin ", " qb.Criteria ++ ")") :=
    braceFree_append (braceFree_append (by decide)
      (braceFree_goJoin (by decide) hcr)) (by decide)
  have hhead : Neutral ([qb.Name, "(func: " ++ goJoin ", " qb.Criteria ++ ")"] ++
      qb.Directives) := by
    refine neutral_append ?_ (neutral_free_list hds)
    refine neutral_free_list ?_
    intro t ht
    simp only [List.mem_cons, List.not_mem_nil, or_false] at ht
    rcases ht with rfl | rfl
    · exact hn
    · exact hfunc
  have hwrap : Neutral (["\x7b"] ++ Attribute.tokensList qb.Attributes ++ ["\x7d"]) :=
    neutral_wrap (attr_tokensList_neutral _ hat)
  refine neutral_congr ?_ (neutral_append hhead hwrap)
  simp only [QueryBlock.tokens, List.append_assoc]

/-- The tokens of a brace-free variable block form a neutral segment. -/
theorem vb_tokens_neutral (vb : VarBlock) (h : VarBlock.bfB vb = true) :
    Neutral (VarBlock.tokens vb) := by
  simp only [VarBlock.bfB, Bool.and_eq_true, List.all_eq_true, strBF_iff] at h
  obtain ⟨⟨⟨hn, hcr⟩, hds⟩, hat⟩ := h
  have hfunc : BraceFree ("(func: " ++ vb.Criteria ++ ")") :=
    braceFree_append (braceFree_append (by decide) hcr) (by decide)
  have hhead : Neutral ((if vb.Name ≠ "" then [vb.Name, "AS"] else []) ++
      ["var", "(func: " ++ vb.Criteria ++ ")"] ++ vb.Directives) := by
    refine neutral_append (neutral_append ?_ ?_) (neutral_free_list hds)
    · split
      · refine neutral_free_list ?_
        intro t ht
        simp only [List.mem_cons, List.not_mem_nil, or_false] at ht
        rcases ht with rfl | rfl
        · exact hn
        · decide
      · exact neutral_nil
    · refine neutral_free_list ?_
      intro t ht
      simp only [List.mem_cons, List.not_mem_nil, or_false] at ht
      rcases ht with rfl | rfl
      · decide
      · exact hfunc
  have hwrap : Neutral (["\x7b"] ++ Attribute.tokensList vb.Attributes ++ ["\x7d"]) :=
    neutral_wrap (attr_tokensList_neutral _ hat)
  refine neutral_congr ?_ (neutral_append hhead hwrap)
  simp only [VarBlock.tokens, List.append_assoc]

/-- The tokens of a brace-free fragment form a neutral segment. -/
theorem frag_tokens_neutral (f : Fragment) (h : Fragment.bfB f = true) :
    Neutral (Fragment.tokens f) := by
  simp only [Fragment.bfB, Bool.and_eq_true, strBF_iff] at h
  obtain ⟨hn, hat⟩ := h
  have hhead : Neutral ["fragment", f.Name] := by
    refine neutral_free_list ?_
    intro t ht
    simp only [List.mem_cons, List.not_mem_nil, or_false] at ht
    rcases ht with rfl | rfl
    · decide
    · exact hn
  have hwrap : Neutral (["\x7b"] ++ Attribute.tokensList f.Attributes ++ ["\x7d"]) :=
    neutral_wrap (attr_tokensList_neutral _ hat)
  refine neutral_congr ?_ (neutral_append hhead hwrap)
  simp [Fragment.tokens, List.append_assoc]

/-- Flattened tokens of a list of brace-free blocks form a neutral
segment. -/
theorem flatten_neutral {α : Type} (T : α → List Str) (P : α → Bool)
    (hT : ∀ x, P x = true → Neutral (T x)) :
    ∀ l : List α, l.all P = true → Neutral ((l.map T).flatten) := by
  intro l
  induction l with
  | nil => intro _; exact neutral_nil
  | cons x xs ih =>
    intro h
    simp only [List.all_cons, Bool.and_eq_true] at h
    rw [List.map_cons, List.flatten_cons]
    exact neutral_append (hT x h.1) (ih h.2)

/-- The full token list of a brace-free query satisfies the depth
bookkeeping from depth zero. -/
theorem query_tokens_depthOk (q : Query) (h : Query.bfB q = true) :
    depthOk 0 (Query.tokens q) := by
  simp only [Query.bfB, Bool.and_eq_true, List.all_eq_true, strBF_iff] at h
  obtain ⟨⟨⟨⟨hn, hp⟩, hv⟩, hq⟩, hf⟩ := h
  have hhead : Neutral ((if q.Name ≠ "" then ["query", q.Name] else []) ++
      (if q.Params.isEmpty then [] else
        ["(", goJoin ", " (q.Params.map Param.String), ")"])) := by
    refine neutral_append ?_ ?_
    · split
      · refine neutral_free_list ?_
        intro t ht
        simp only [List.mem_cons, List.not_mem_nil, or_false] at ht
        rcases ht with rfl | rfl
        · decide
        · exact hn
      · exact neutral_nil
    · split
      · exact neutral_nil
      · refine neutral_free_list ?_
        intro t ht
        simp only [List.mem_cons, List.not_mem_nil, or_false] at ht
        rcases ht with rfl | rfl | rfl
        · decide
        · refine braceFree_goJoin (by decide) ?_
          intro s hs
          rcases List.mem_map.1 hs with ⟨p, hp', rfl⟩
          exact param_render_bf p (hp p hp')
        · decide
  have hV : Neutral ((q.VarBlocks.map VarBlock.tokens).flatten) :=
    flatten_neutral _ _ vb_tokens_neutral q.VarBlocks (List.all_eq_true.2 hv)
  have hQ : Neutral ((q.QueryBlocks.map QueryBlock.tokens).flatten) :=
    flatten_neutral _ _ qb_tokens_neutral q.QueryBlocks (List.all_eq_true.2 hq)
  have hF : Neutral ((q.Fragments.map Fragment.tokens).flatten) :=
    flatten_neutral _ _ frag_tokens_neutral q.Fragments (List.all_eq_true.2 hf)
  have hrest : depthOk 0 ("\x7b" ::
      (((q.VarBlocks.map VarBlock.tokens).flatten ++
        (q.QueryBlocks.map QueryBlock.tokens).flatten) ++
        ("\x7d" :: (q.Fragments.map Fragment.tokens).flatten))) := by
    rw [depthOk, if_pos rfl]
    refine neutral_append hV hQ 1 _ ?_
    rw [depthOk, if_neg (by decide), if_pos rfl]
    exact ⟨Nat.one_pos, by simpa using neutral_depthOk hF 0⟩
  have heq : Query.tokens q =
      ((if q.Name ≠ "" then ["query", q.Name] else []) ++
        (if q.Params.isEmpty then [] else
          ["(", goJoin ", " (q.Params.map Param.String), ")"])) ++
      ("\x7b" ::
        (((q.VarBlocks.map VarBlock.tokens).flatten ++
          (q.QueryBlocks.map QueryBlock.tokens).flatten) ++
          ("\x7d" :: (q.Fragments.map Fragment.tokens).flatten))) := by
    simp [Query.tokens, List.append_assoc]
  rw [heq]
  exact hhead 0 _ hrest

/-- The flattened tokens of a nonempty fragment list end with the last
fragment's closing brace. -/
theorem frag_flatten_getLast : ∀ (fs : List Fragment), fs ≠ [] →
    ((fs.map Fragment.tokens).flatten).getLast? = some "\x7d" := by
  intro fs
  induction fs with
  | nil => intro h; exact absurd rfl h
  | cons f fs ih =>
    intro _
    rw [List.map_cons, List.flatten_cons]
    by_cases hfs : fs = []
    · subst hfs
      simp only [List.map_nil, List.flatten_nil, List.append_nil]
      rw [Fragment.tokens, List.getLast?_append_of_ne_nil _ (by simp)]
      rfl
    · have h' := ih hfs
      have hne : ((fs.map Fragment.tokens).flatten) ≠ [] := by
        intro hnil
        rw [hnil] at h'
        cases h'
      rw [List.getLast?_append_of_ne_nil _ hne]
      exact h'

/-- A query's token list always ends with a closing brace. -/
theorem query_tokens_getLast (q : Query) :
    (Query.tokens q).getLast? = some "\x7d" := by
  rw [Query.tokens]
  by_cases hf : q.Fragments = []
  · rw [hf]
    simp only [List.map_nil, List.flatten_nil, List.append_nil]
    rw [List.getLast?_append_of_ne_nil _ (by simp)]
    rfl
  · have h' := frag_flatten_getLast q.Fragments hf
    have hne : ((q.Fragments.map Fragment.tokens).flatten) ≠ [] := by
      intro hnil
      rw [hnil] at h'
      cases h'
    rw [List.getLast?_append_of_ne_nil _ hne]
    exact h'

/-- C4 counterexample: a query whose block name is a closing brace
drives the scanner's depth below zero, so PrettyPrint hits Go's
negative strings.Repeat count and fails instead of returning a
string. -/
theorem c4_counterexample : qBrace.PrettyPrint = none := by decide

/-- C4 amended: the compact render always returns a string, and
PrettyPrint runs to completion - the two-ahead read stays in range and
every indent count stays nonnegative - for every query whose
caller-supplied names, parameters, criteria and directives avoid both
brace characters. -/
theorem c4_total_of_braceFree (q : Query) (h : Query.bfB q = true) :
    (Query.PrettyPrint q).isSome = true := by
  rw [Query.PrettyPrint, option_isSome_map, query_join_tokens]
  exact ppLoop_scanOk (Query.tokens q) 0
    (scanOk_of_depthOk _ 0 (query_tokens_depthOk q h)
      (Or.inr (query_tokens_getLast q)))

/-- Witness for C4 at the brace-free example query. -/
theorem c4_witness : (Query.PrettyPrint qGetUser).isSome = true :=
  c4_total_of_braceFree qGetUser (by decide)
